import Mathlib

/-!
Verification development for the audiobook series tracker.

The Python sources are shallowly embedded: pure functions become Lean
functions on `String`/`List Char`/`ℚ`, the JSON cache file becomes an
explicit `CacheFile` state, and Python `Optional` values become `Option`.
Strings are modelled over their character lists; Python whitespace and
case folding are modelled at ASCII granularity (the granularity the
repository's data uses).
-/

/-! ## Generic string helpers (Python `str.strip`, `in`, `split`, `lower`) -/

/-- Characters Python's `str.strip()` and the regex class `\s` treat as
whitespace (ASCII range). -/
def pyIsSpace (c : Char) : Bool :=
  c == ' ' || c == '\t' || c == '\n' || c == '\r' || c == '\x0b' || c == '\x0c'

/-- Python `str.strip()` on a character list: drop whitespace from both ends. -/
def pyStripList (l : List Char) : List Char :=
  ((l.dropWhile pyIsSpace).reverse.dropWhile pyIsSpace).reverse

/-- Drop trailing whitespace only. -/
def stripTrailing (l : List Char) : List Char :=
  (l.reverse.dropWhile pyIsSpace).reverse

/-- Does the list start with the given prefix of characters? -/
def startsWithList : List Char → List Char → Bool
  | [], _ => true
  | _ :: _, [] => false
  | a :: as, b :: bs => a == b && startsWithList as bs

/-- Python's substring test `needle in hay` (empty needle is contained in
everything). -/
def containsSub (needle : List Char) : List Char → Bool
  | [] => needle.isEmpty
  | c :: rest => startsWithList needle (c :: rest) || containsSub needle rest

/-- Python `str.split(sep)` for a single-character separator. -/
def splitChar (sep : Char) : List Char → List (List Char)
  | [] => [[]]
  | c :: rest =>
    match splitChar sep rest with
    | [] => if c == sep then [[], []] else [[c]]
    | h :: t => if c == sep then [] :: h :: t else (c :: h) :: t

/-- Python `str.lower()` on a character list (ASCII case folding). -/
def lowerList (l : List Char) : List Char :=
  l.map Char.toLower

/-- Value of a run of decimal digits (most significant first). -/
def digitsVal (ds : List Char) : ℕ :=
  ds.foldl (fun a c => 10 * a + (c.toNat - 48)) 0

/-! ## Series Name/Order Parser (`audiobookshelf.parse_series_info`)

The Python function matches the anchored regex
`^(.+?)\s*#(\d+(?:\.\d+)?(?:-(\d+(?:\.\d+)?))?)$` against the stripped
input.  Because the order group can contain only digits, `.` and `-`, any
successful match must split the string at its **last** `#`; the lazy name
group together with `\s*` makes the name group equal to the prefix before
that `#` with trailing whitespace removed, and `.` not matching newlines
forbids a newline inside the name group.  The embedding below implements
exactly that characterization. -/

/-- Does the list match `\d+(\.\d+)?` exactly? -/
def matchDec (l : List Char) : Bool :=
  let ds := l.takeWhile Char.isDigit
  let rest := l.dropWhile Char.isDigit
  !ds.isEmpty &&
    (rest.isEmpty ||
      (match rest with
       | '.' :: fs => !fs.isEmpty && fs.all Char.isDigit
       | _ => false))

/-- Numeric value of a `\d+(\.\d+)?` match (Python `float` on it):
`d.f` denotes `(d * 10^|f| + f) / 10^|f|`. -/
def valDec (l : List Char) : ℚ :=
  let ds := l.takeWhile Char.isDigit
  let rest := l.dropWhile Char.isDigit
  match rest with
  | '.' :: fs => mkRat ((digitsVal ds * 10 ^ fs.length + digitsVal fs : ℕ) : ℤ) (10 ^ fs.length)
  | _ => mkRat ((digitsVal ds : ℕ) : ℤ) 1

/-- Does the list match the full order group `\d+(\.\d+)?(-(\d+(\.\d+)?))?`? -/
def matchNumPat (l : List Char) : Bool :=
  match splitChar '-' l with
  | [a] => matchDec a
  | [a, b] => matchDec a && matchDec b
  | _ => false

/-- Value the Python code computes for a matched order group:
`max(float(p) for p in order_str.split('-'))`. -/
def orderVal (l : List Char) : ℚ :=
  match splitChar '-' l with
  | [a, b] => max (valDec a) (valDec b)
  | [a] => valDec a
  | _ => 0

/-- Split a list at its last `#`: `some (before, after)`, or `none` when no
`#` occurs. -/
def lastHashSplit (l : List Char) : Option (List Char × List Char) :=
  if '#' ∈ l then
    some (((l.reverse.dropWhile (fun c => c != '#')).drop 1).reverse,
          (l.reverse.takeWhile (fun c => c != '#')).reverse)
  else none

/-- `audiobookshelf.parse_series_info`: parse `"Series Name #3"`,
`"Series Name #1.5"` or the publisher-pack range `"Series Name #1-2"`
(range yields the larger endpoint); anything else degrades to
`(stripped input, 0)`. -/
def parse_series_info (s : String) : String × ℚ :=
  if s = "" then ("", 0)
  else
    let t := pyStripList s.toList
    match lastHashSplit t with
    | none => (String.mk t, 0)
    | some (before, after) =>
      let core := stripTrailing before
      if core = [] then (String.mk t, 0)
      else if '\n' ∈ core then (String.mk t, 0)
      else if matchNumPat after then (String.mk core, orderVal after)
      else (String.mk t, 0)

/-! ## ASIN Extractor (`audiobookshelf.extract_asin_from_path`)

`re.search(r'_([A-Z0-9]{10})_LC_', path, re.IGNORECASE)`: the first
position carrying `_`, ten alphanumeric characters, then `_LC_`
(case-insensitive letters). -/

/-- Try to match `_([A-Za-z0-9]{10})_[Ll][Cc]_` at the head of the list. -/
def matchAsinAt : List Char → Option String
  | '_' :: rest =>
    let asin := rest.take 10
    let after := rest.drop 10
    if asin.length = 10 ∧ asin.all Char.isAlphanum then
      match after with
      | '_' :: c1 :: c2 :: '_' :: _ =>
        if (c1 == 'L' || c1 == 'l') && (c2 == 'C' || c2 == 'c') then
          some (String.mk asin)
        else none
      | _ => none
    else none
  | _ => none

/-- `re.search`: scan left to right for the first match. -/
def searchAsin : List Char → Option String
  | [] => none
  | c :: rest =>
    match matchAsinAt (c :: rest) with
    | some a => some a
    | none => searchAsin rest

/-- `audiobookshelf.extract_asin_from_path`. -/
def extract_asin_from_path (path : String) : Option String :=
  if path = "" then none else searchAsin path.toList

/-! ## Library Reconciler (`audiobookshelf.build_series_dict_from_series`)

Raw library records.  Python's falsy test `if not asin` treats a missing
or empty metadata identifier alike, so the metadata `asin` field is
modelled as a `String` with `""` standing for absent-or-empty; likewise a
missing `seriesName` is the empty string. -/

structure BookMeta where
  asin : String
  seriesName : String
  title : String
deriving DecidableEq

structure LibBook where
  meta : BookMeta
  path : String
deriving DecidableEq

structure LibSeries where
  name : String
  books : List LibBook
deriving DecidableEq

structure OwnedBook where
  asin : String
  order : ℚ
  title : String
deriving DecidableEq

structure SeriesSnapshot where
  max_order : ℚ
  sample_asin : String
  books : List OwnedBook
deriving DecidableEq

/-- Identifier resolution for one library book: metadata field first,
else the path fallback (`extract_asin_from_path`), else unresolvable. -/
def resolveAsin (b : LibBook) : Option String :=
  if b.meta.asin ≠ "" then some b.meta.asin
  else extract_asin_from_path b.path

/-- The per-book order loop of `build_series_dict_from_series` (lines
191-200): walk the comma-split entries of the book's own series-label
field; an exact case-insensitive name match takes the parsed order and
stops, a case-insensitive substring match in either direction takes the
parsed order but keeps scanning. `snl` is the series record's lowercased
name. -/
def orderForEntries (snl : List Char) : List (List Char) → ℚ → ℚ
  | [], order => order
  | e :: rest, order =>
    let entry := pyStripList e
    let p := parse_series_info (String.mk entry)
    let pl := lowerList p.1.toList
    if pl = snl then p.2
    else if containsSub snl pl = true ∨ containsSub pl snl = true then
      orderForEntries snl rest p.2
    else orderForEntries snl rest order

/-- Order of one library book within the series named (lowercased) `snl`. -/
def bookOrder (snl : List Char) (b : LibBook) : ℚ :=
  orderForEntries snl (splitChar ',' b.meta.seriesName.toList) 0

/-- Loop state of `build_series_dict_from_series` for one series record:
collected books, running maximum order, and the representative (sample)
identifier found so far. -/
structure BuildAcc where
  books : List OwnedBook
  max_order : ℚ
  sample : Option String
deriving DecidableEq

/-- The inner book loop of `build_series_dict_from_series`: books with no
resolvable identifier are skipped; a strictly larger order updates the
maximum and the sample identifier; a still-unset sample is filled with
the current identifier; every resolved book is appended. -/
def processBooks (snl : List Char) : List LibBook → BuildAcc → BuildAcc
  | [], acc => acc
  | b :: rest, acc =>
    match resolveAsin b with
    | none => processBooks snl rest acc
    | some asin =>
      let order := bookOrder snl b
      let acc1 :=
        if acc.max_order < order then
          { acc with max_order := order, sample := some asin }
        else acc
      let acc2 := if acc1.sample = none then { acc1 with sample := some asin } else acc1
      processBooks snl rest
        { acc2 with books := acc2.books ++ [⟨asin, order, b.meta.title⟩] }

/-- `build_series_dict_from_series` restricted to one series record:
records with an empty name are skipped, and a snapshot is produced only
when a sample identifier was found. -/
def buildOne (s : LibSeries) : Option SeriesSnapshot :=
  if s.name = "" then none
  else
    let acc := processBooks (lowerList s.name.toList) s.books ⟨[], 0, none⟩
    match acc.sample with
    | some a => some ⟨acc.max_order, a, acc.books⟩
    | none => none

/-- Python `dict` lookup on an insertion-ordered association list. -/
def dictGet {α : Type} (k : String) : List (String × α) → Option α
  | [] => none
  | (k2, v) :: rest => if k2 = k then some v else dictGet k rest

/-- Python `dict` assignment: replace in place, else append. -/
def dictUpsert {α : Type} (k : String) (v : α) : List (String × α) → List (String × α)
  | [] => [(k, v)]
  | (k2, v2) :: rest =>
    if k2 = k then (k, v) :: rest else (k2, v2) :: dictUpsert k v rest

/-- `audiobookshelf.build_series_dict_from_series`: one snapshot per
series record that yields a sample identifier. -/
def build_series_dict_from_series (l : List LibSeries) : List (String × SeriesSnapshot) :=
  l.foldl (fun d s =>
    match buildOne s with
    | some snap => dictUpsert s.name snap d
    | none => d) []

/-- Specification-side view of the book loop: the sequence of resolved
books of a record, in encounter order, each with its in-series order. -/
def resolvedFrom (snl : List Char) : List LibBook → List OwnedBook
  | [] => []
  | b :: rest =>
    match resolveAsin b with
    | none => resolvedFrom snl rest
    | some a => ⟨a, bookOrder snl b, b.meta.title⟩ :: resolvedFrom snl rest

/-- Resolved books of one series record. -/
def resolvedBooks (s : LibSeries) : List OwnedBook :=
  resolvedFrom (lowerList s.name.toList) s.books

/-- Running maximum of the orders of a book list, seeded with `x`. -/
def maxOrderFrom (x : ℚ) : List OwnedBook → ℚ
  | [] => x
  | b :: rest => maxOrderFrom (max x b.order) rest

/-- Specification-side representative identifier (claim C7's wording):
the first book achieving the maximum order when that maximum is above 0,
else the first resolved book seen. -/
def repSpec (l : List OwnedBook) : Option String :=
  match l with
  | [] => none
  | b0 :: _ =>
    let m := maxOrderFrom 0 l
    if 0 < m then (l.find? (fun b => decide (b.order = m))).map (fun b => b.asin)
    else some b0.asin

/-! ## Series candidate extraction (`audible_api.get_series_from_product`)

A product's raw series affiliations and relationship entries.  Missing
string fields default to `""` exactly as the Python `dict.get(..., "")`
calls do. -/

structure SeriesAffil where
  asin : String
  title : String
  sequence : String
deriving DecidableEq

structure ProductRel where
  asin : String
  title : String
  sequence : String
  relationship_type : String
  relationship_to_product : String
deriving DecidableEq

structure AudProduct where
  series : List SeriesAffil
  relationships : List ProductRel
deriving DecidableEq

structure CandSeries where
  asin : String
  title : String
  sequence : ℚ
deriving DecidableEq

/-- `"dramatized" in str(sequence).lower()`. -/
def hasDramatized (s : String) : Bool :=
  containsSub ("dramatized".toList) (lowerList s.toList)

/-- Python `float()` on a stripped string: optional sign, then
`d+[.d*]`, `.d+`, with an optional `e`/`E` exponent.  The resulting
rational `s * m / 10^k * 10^e` is assembled as a single `mkRat`. -/
def pyFloatCore (l : List Char) : Option ℚ :=
  let signAndRest : ℤ × List Char :=
    match l with
    | '+' :: r => (1, r)
    | '-' :: r => (-1, r)
    | r => (1, r)
  let sign := signAndRest.1
  let l1 := signAndRest.2
  let ds := l1.takeWhile Char.isDigit
  let r1 := l1.dropWhile Char.isDigit
  let mant? : Option (ℕ × ℕ × List Char) :=
    match r1 with
    | '.' :: r2 =>
      let fs := r2.takeWhile Char.isDigit
      let r3 := r2.dropWhile Char.isDigit
      if ds.isEmpty ∧ fs.isEmpty then none
      else some (digitsVal ds * 10 ^ fs.length + digitsVal fs, fs.length, r3)
    | _ => if ds.isEmpty then none else some (digitsVal ds, 0, r1)
  match mant? with
  | none => none
  | some (m, k, rest) =>
    match rest with
    | [] => some (mkRat (sign * (m : ℤ)) (10 ^ k))
    | e :: r2 =>
      if e = 'e' ∨ e = 'E' then
        let esignAndRest : Bool × List Char :=
          match r2 with
          | '+' :: t => (false, t)
          | '-' :: t => (true, t)
          | t => (false, t)
        let es := esignAndRest.2.takeWhile Char.isDigit
        let r3 := esignAndRest.2.dropWhile Char.isDigit
        if es.isEmpty ∨ ¬ r3.isEmpty then none
        else if esignAndRest.1 then
          some (mkRat (sign * (m : ℤ)) (10 ^ k * 10 ^ digitsVal es))
        else
          some (mkRat (sign * (m : ℤ) * 10 ^ digitsVal es) (10 ^ k))
      else none

/-- Python `float(s)` as an optional-valued function to ℚ (`none` models the
`ValueError` the source catches). -/
def pyFloat? (s : String) : Option ℚ :=
  pyFloatCore (pyStripList s.toList)

/-- One iteration of the `series`-field loop of
`get_series_from_product`: skip dramatized sequences, keep an empty
sequence as 0, drop a non-empty unparseable sequence. -/
def seriesFieldStep (a : SeriesAffil) : Option CandSeries :=
  if hasDramatized a.sequence then none
  else
    match (if a.sequence = "" then some (0 : ℚ) else pyFloat? a.sequence) with
    | none => none
    | some q => some ⟨a.asin, a.title, q⟩

/-- One iteration of the relationship fallback loop of
`get_series_from_product`: only `"series"` relations, never the
`"merchant_title_authority"` back-reference, then the same sequence
policy as the series field. -/
def relStep (r : ProductRel) : Option CandSeries :=
  if r.relationship_type ≠ "series" then none
  else if r.relationship_to_product = "merchant_title_authority" then none
  else if hasDramatized r.sequence then none
  else
    match (if r.sequence = "" then some (0 : ℚ) else pyFloat? r.sequence) with
    | none => none
    | some q => some ⟨r.asin, r.title, q⟩

/-- `audible_api.get_series_from_product`: the series field first; the
relationship fallback only when the series field produced nothing. -/
def get_series_from_product (p : AudProduct) : List CandSeries :=
  let s := p.series.filterMap seriesFieldStep
  if s.isEmpty then p.relationships.filterMap relStep else s

/-! ## Next-Book Selector (`next_book_finder.find_next_book`) -/

structure CatalogBook where
  asin : String
  title : String
  sequence : ℚ
  cover_url : String
  issue_date : String
deriving DecidableEq

/-- Python `int()` on a rational: truncation toward zero. -/
def pyInt (q : ℚ) : ℤ :=
  q.num.tdiv (q.den : ℤ)

/-- One iteration of the selection loop of `find_next_book`: skip a
member whose sequence is not an exact integer (`seq != int(seq)`), then
keep the strictly-greater-than-`owned_max` member with the smallest
sequence, the first encountered winning ties. -/
def nextStep (owned_max : ℚ) (nb : Option CatalogBook) (book : CatalogBook) : Option CatalogBook :=
  if book.sequence ≠ ((pyInt book.sequence : ℤ) : ℚ) then nb
  else if owned_max < book.sequence then
    match nb with
    | none => some book
    | some cur => if book.sequence < cur.sequence then some book else nb
  else nb

/-- `next_book_finder.find_next_book` on the resolved member list. -/
def find_next_book (owned_max : ℚ) (all_books : List CatalogBook) : Option CatalogBook :=
  if all_books = [] then none
  else all_books.foldl (nextStep owned_max) none

/-- Qualification predicate of claim C1: exact-integer sequence strictly
above `owned_max`. -/
def nextQualifies (owned_max : ℚ) (b : CatalogBook) : Bool :=
  decide (b.sequence = ((pyInt b.sequence : ℤ) : ℚ)) && decide (owned_max < b.sequence)

/-- Specification-side selector: the element with the smallest sequence,
the first encountered winning ties. -/
def minBySeqFirst : List CatalogBook → Option CatalogBook
  | [] => none
  | b :: rest =>
    match minBySeqFirst rest with
    | none => some b
    | some m => if m.sequence < b.sequence then some m else some b

/-- Specification-side next-book selection, per the claim's wording. -/
def selectNextSpec (owned_max : ℚ) (l : List CatalogBook) : Option CatalogBook :=
  minBySeqFirst (l.filter (nextQualifies owned_max))

/-! ## Release-State Cache (`storage.py`)

The JSON document is modelled structurally; the state of the file on
disk is a `CacheFile`: missing, unreadable (`IOError`), corrupt
(`json.JSONDecodeError`), or readable with a well-formed document. -/

structure NextBook where
  asin : String
  title : String
  sequence : ℚ
  cover_url : String
  issue_date : String
deriving DecidableEq

structure ReleaseNotice where
  series_name : String
  asin : String
  title : String
  sequence : ℚ
  cover_url : String
deriving DecidableEq

structure CacheEntry where
  owned_max : ℚ
  next_book : Option NextBook
deriving DecidableEq

structure CacheDoc where
  last_updated : Option String
  series : List (String × CacheEntry)
  new_releases : List ReleaseNotice
deriving DecidableEq

/-- The default document `{"last_updated": None, "series": {}}` (the
absent `new_releases` key reads as `[]` through `dict.get`). -/
def emptyCache : CacheDoc :=
  { last_updated := none, series := [], new_releases := [] }

inductive CacheFile where
  | missing
  | unreadable
  | corrupt
  | stored (doc : CacheDoc)
deriving DecidableEq

/-- `storage.load_cache` on the file states where the Python function
returns a document: the default for a missing file and for the two
caught read failures (`IOError`, `json.JSONDecodeError`).  The full
model including the exception channel is `load_cache_outcome` below. -/
def load_cache : CacheFile → CacheDoc
  | .missing => emptyCache
  | .unreadable => emptyCache
  | .corrupt => emptyCache
  | .stored doc => doc

/-- All states of the cache file, including content that the UTF-8 text
decoder rejects.  `open(..., "r", encoding="utf-8")` followed by
`json.load` raises `UnicodeDecodeError` on such bytes, and that
exception is a `ValueError` that is neither a `json.JSONDecodeError`
nor an `IOError`, so the `except` clause of `storage.load_cache` does
not catch it. -/
inductive CacheFileContent where
  | missing
  | unreadable
  | malformed
  | undecodable
  | stored (doc : CacheDoc)
deriving DecidableEq

/-- Full model of `storage.load_cache` with its exception channel:
a missing file and both caught failures (`IOError` while reading,
`json.JSONDecodeError` on malformed JSON text) degrade to the default
document, while non-UTF-8 bytes escape as an uncaught
`UnicodeDecodeError`. -/
def load_cache_outcome : CacheFileContent → Except String CacheDoc
  | .missing => .ok emptyCache
  | .unreadable => .ok emptyCache
  | .malformed => .ok emptyCache
  | .undecodable => .error "UnicodeDecodeError"
  | .stored doc => .ok doc

/-- `storage.save_cache`: stamp a fresh `last_updated`, then write the
whole document; the result is the new persisted state. -/
def save_cache (data : CacheDoc) (now : String) : CacheDoc :=
  { data with last_updated := some now }

/-- `storage.get_cached_series`. -/
def get_cached_series (f : CacheFile) (series_name : String) : Option CacheEntry :=
  dictGet series_name (load_cache f).series

/-- `storage.should_update_series`: update on cache miss or a strictly
larger current owned maximum. -/
def should_update_series (f : CacheFile) (series_name : String) (current_max_order : ℚ) : Bool :=
  match get_cached_series f series_name with
  | none => true
  | some cached => decide (cached.owned_max < current_max_order)

/-- The update decision applied per series by
`next_book_finder.process_all_series` (line 73): the force flag
overrides the cache policy. -/
def updateDecision (force_update : Bool) (f : CacheFile) (series_name : String)
    (owned_max : ℚ) : Bool :=
  force_update || should_update_series f series_name owned_max

/-- `storage.update_series`: read-modify-write of the whole document,
replacing only the entry of the given series. -/
def update_series (f : CacheFile) (series_name : String) (owned_max : ℚ)
    (next_book : Option NextBook) (now : String) : CacheDoc :=
  let cache := load_cache f
  save_cache { cache with series := dictUpsert series_name ⟨owned_max, next_book⟩ cache.series } now

/-- `storage.detect_new_release`: a present fresh record, an existing
cache entry, and a previously absent `next_book`. -/
def detect_new_release (f : CacheFile) (series_name : String)
    (new_next_book : Option NextBook) : Bool :=
  match new_next_book with
  | none => false
  | some _ =>
    match get_cached_series f series_name with
    | none => false
    | some cached => cached.next_book.isNone

/-- Combination of two optional minima under the smallest-sequence,
first-wins order (auxiliary for relating the fold to the selector
specification). -/
def combineNext : Option CatalogBook → Option CatalogBook → Option CatalogBook
  | none, y => y
  | some cur, none => some cur
  | some cur, some m => if m.sequence < cur.sequence then some m else some cur

/-- Concrete resolved member list used to witness the selector claims:
sequences 4, 4.5 and 5. -/
def wBooks : List CatalogBook :=
  [⟨"a4", "Book 4", 4, "", ""⟩, ⟨"a45", "Book 4.5", mkRat 9 2, "", ""⟩,
   ⟨"a5", "Book 5", 5, "", ""⟩]

/-- Concrete library series record used to witness the reconciler claim. -/
def wSeries : LibSeries :=
  ⟨"Foo", [⟨⟨"", "Foo #1", "T1"⟩, "D:/Audible/Book_1774241307_LC_128.m4b"⟩,
           ⟨⟨"ASIN000002", "Foo #2", "T2"⟩, ""⟩]⟩

/-- Concrete catalog product used to witness the extraction claim. -/
def wProduct : AudProduct :=
  ⟨[⟨"SA", "Series T", "2"⟩], []⟩

/-- The candidate the witness product yields. -/
def wCand : CandSeries :=
  ⟨"SA", "Series T", 2⟩

/-! # Theorems -/

/-! ## Cache lemmas -/

theorem dictGet_dictUpsert_ne {α : Type} (s t : String) (v : α) (l : List (String × α))
    (h : s ≠ t) : dictGet s (dictUpsert t v l) = dictGet s l := by
  have hts : ¬ (t = s) := fun h2 => h h2.symm
  induction l with
  | nil => simp [dictUpsert, dictGet, hts]
  | cons kv rest ih =>
    obtain ⟨k, v2⟩ := kv
    by_cases hk : k = t
    · subst hk
      simp [dictUpsert, dictGet, hts]
    · by_cases hs : k = s
      · simp [dictUpsert, dictGet, hk, hs, h]
      · simp [dictUpsert, dictGet, hk, hs, ih]

/-- C5: loading the persisted cache document and saving it back changes
nothing but the freshly stamped `last_updated` field. -/
theorem save_load_roundtrip (doc : CacheDoc) (now : String) :
    (save_cache (load_cache (.stored doc)) now).series = doc.series ∧
    (save_cache (load_cache (.stored doc)) now).new_releases = doc.new_releases ∧
    (save_cache (load_cache (.stored doc)) now).last_updated = some now :=
  ⟨rfl, rfl, rfl⟩

/-- The restricted model agrees with the full one on every state where
the Python function returns a document. -/
theorem load_cache_outcome_agrees :
    load_cache_outcome .missing = Except.ok (load_cache .missing) ∧
    load_cache_outcome .unreadable = Except.ok (load_cache .unreadable) ∧
    load_cache_outcome .malformed = Except.ok (load_cache .corrupt) ∧
    ∀ doc, load_cache_outcome (.stored doc) = Except.ok (load_cache (.stored doc)) :=
  ⟨rfl, rfl, rfl, fun _ => rfl⟩

/-- C6 counterexample: a cache file whose bytes are not decodable as
UTF-8 is corrupt content on which the load operation raises
(`UnicodeDecodeError` is not in the `except` clause) rather than
returning the default empty document. -/
theorem load_cache_undecodable_cex :
    load_cache_outcome .undecodable = Except.error "UnicodeDecodeError" ∧
    load_cache_outcome .undecodable ≠ Except.ok emptyCache :=
  ⟨rfl, fun hh => Except.noConfusion hh⟩

/-- C6 (amended): a missing cache file, an unreadable one (`IOError`),
and UTF-8 content that is not valid JSON (`json.JSONDecodeError`) all
load as the default empty document (no `last_updated`, empty series
mapping) without raising; cache content that is not decodable as UTF-8
instead escapes as an uncaught `UnicodeDecodeError`. -/
theorem load_cache_default_on_failure :
    load_cache_outcome .missing = Except.ok emptyCache ∧
    load_cache_outcome .unreadable = Except.ok emptyCache ∧
    load_cache_outcome .malformed = Except.ok emptyCache ∧
    load_cache_outcome .undecodable = Except.error "UnicodeDecodeError" ∧
    emptyCache.last_updated = none ∧
    emptyCache.series = [] :=
  ⟨rfl, rfl, rfl, rfl, rfl, rfl⟩

/-- C2: the detector fires exactly when the fresh record is present, an
entry for the series already existed, and that entry's `next_book` was
absent; in particular a first sighting or a present-to-present change
never fires. -/
theorem detect_new_release_correct (doc : CacheDoc) (series_name : String)
    (new_next_book : Option NextBook) :
    detect_new_release (.stored doc) series_name new_next_book = true ↔
      (new_next_book.isSome = true ∧
        ∃ cached, dictGet series_name doc.series = some cached ∧ cached.next_book = none) := by
  cases new_next_book <;> cases h : dictGet series_name doc.series <;>
    simp [detect_new_release, get_cached_series, load_cache, h, Option.isNone_iff_eq_none]

/-- C3: the per-series update decision is exactly force, cache miss, or
a strictly larger current owned maximum; otherwise the series is
skipped. -/
theorem update_decision_correct (doc : CacheDoc) (force_update : Bool)
    (series_name : String) (owned_max : ℚ) :
    updateDecision force_update (.stored doc) series_name owned_max = true ↔
      (force_update = true ∨ dictGet series_name doc.series = none ∨
        ∃ cached, dictGet series_name doc.series = some cached ∧
          cached.owned_max < owned_max) := by
  cases force_update <;> cases h : dictGet series_name doc.series <;>
    simp [updateDecision, should_update_series, get_cached_series, load_cache, h]

/-- C9: upserting one series rewrites only that series' entry; every
other series' entry and the stored `new_releases` list persist
unchanged. -/
theorem update_series_frame (doc : CacheDoc) (t : String) (owned_max : ℚ)
    (next_book : Option NextBook) (now s : String) (h : s ≠ t) :
    dictGet s (update_series (.stored doc) t owned_max next_book now).series =
      dictGet s doc.series ∧
    (update_series (.stored doc) t owned_max next_book now).new_releases =
      doc.new_releases := by
  refine ⟨?_, rfl⟩
  simp only [update_series, load_cache, save_cache]
  exact dictGet_dictUpsert_ne s t _ doc.series h

theorem update_series_frame_witness :
    (("A" : String) ≠ "B") ∧
    (dictGet "A" (update_series (.stored ⟨none, [("A", ⟨1, none⟩)], []⟩) "B" 2 none "t").series =
      dictGet "A" (⟨none, [("A", ⟨1, none⟩)], []⟩ : CacheDoc).series ∧
      (update_series (.stored ⟨none, [("A", ⟨1, none⟩)], []⟩) "B" 2 none "t").new_releases =
        (⟨none, [("A", ⟨1, none⟩)], []⟩ : CacheDoc).new_releases) :=
  ⟨by decide, update_series_frame ⟨none, [("A", ⟨1, none⟩)], []⟩ "B" 2 none "t" "A" (by decide)⟩

/-! ## Parser lemmas -/

theorem mem_of_mem_dropWhile {p : Char → Bool} {a : Char} :
    ∀ {l : List Char}, a ∈ l.dropWhile p → a ∈ l := by
  intro l
  induction l with
  | nil => intro h; exact h
  | cons c rest ih =>
    intro h
    by_cases hc : p c
    · simp only [List.dropWhile, hc] at h
      exact List.mem_cons_of_mem c (ih h)
    · simp only [List.dropWhile, hc] at h
      simpa using h

theorem mem_of_mem_pyStripList {a : Char} {l : List Char} (h : a ∈ pyStripList l) :
    a ∈ l := by
  simp only [pyStripList, List.mem_reverse] at h
  have h2 := mem_of_mem_dropWhile h
  rw [List.mem_reverse] at h2
  exact mem_of_mem_dropWhile h2

theorem lastHashSplit_eq_none {l : List Char} (h : '#' ∉ l) : lastHashSplit l = none := by
  simp [lastHashSplit, h]

theorem takeWhile_append_of_all {p : Char → Bool} :
    ∀ (xs ys : List Char), (∀ x ∈ xs, p x = true) →
      (xs ++ ys).takeWhile p = xs ++ ys.takeWhile p := by
  intro xs
  induction xs with
  | nil => intro ys _; rfl
  | cons c rest ih =>
    intro ys h
    have hc := h c (List.mem_cons_self c rest)
    rw [List.cons_append, List.takeWhile_cons, if_pos hc,
      ih ys (fun x hx => h x (List.mem_cons_of_mem c hx)), List.cons_append]

theorem dropWhile_append_of_all {p : Char → Bool} :
    ∀ (xs ys : List Char), (∀ x ∈ xs, p x = true) →
      (xs ++ ys).dropWhile p = ys.dropWhile p := by
  intro xs
  induction xs with
  | nil => intro ys _; rfl
  | cons c rest ih =>
    intro ys h
    have hc := h c (List.mem_cons_self c rest)
    rw [List.cons_append, List.dropWhile_cons, if_pos hc,
      ih ys (fun x hx => h x (List.mem_cons_of_mem c hx))]

theorem mem_takeWhile_pred {p : Char → Bool} :
    ∀ {l : List Char} {x : Char}, x ∈ l.takeWhile p → p x = true := by
  intro l
  induction l with
  | nil => intro x h; exact absurd h (List.not_mem_nil x)
  | cons c rest ih =>
    intro x h
    by_cases hc : p c = true
    · rw [List.takeWhile_cons, if_pos hc] at h
      rcases List.mem_cons.mp h with rfl | hx
      · exact hc
      · exact ih hx
    · rw [List.takeWhile_cons, if_neg hc] at h
      exact absurd h (List.not_mem_nil x)

theorem dropWhile_head_false {p : Char → Bool} :
    ∀ {l : List Char} {c : Char} {t : List Char}, l.dropWhile p = c :: t → p c = false := by
  intro l
  induction l with
  | nil => intro c t h; exact absurd h (by simp [List.dropWhile])
  | cons a rest ih =>
    intro c t h
    by_cases ha : p a = true
    · rw [List.dropWhile_cons, if_pos ha] at h
      exact ih h
    · rw [List.dropWhile_cons, if_neg ha] at h
      injection h with h1 _
      subst h1
      revert ha
      cases p a <;> simp

theorem dropWhile_eq_nil_all {p : Char → Bool} :
    ∀ {l : List Char}, l.dropWhile p = [] → ∀ x ∈ l, p x = true := by
  intro l
  induction l with
  | nil => intro _ x hx; exact absurd hx (List.not_mem_nil x)
  | cons a rest ih =>
    intro h x hx
    by_cases ha : p a = true
    · rw [List.dropWhile_cons, if_pos ha] at h
      rcases List.mem_cons.mp hx with rfl | hxr
      · exact ha
      · exact ih h x hxr
    · rw [List.dropWhile_cons, if_neg ha] at h
      exact absurd h (by simp)

/-- The last-`#` split recovers any decomposition whose tail is
`#`-free: this is the regex engine finding the only `#` that can start
a valid order group. -/
theorem lastHashSplit_append (pre ord : List Char) (h : '#' ∉ ord) :
    lastHashSplit (pre ++ '#' :: ord) = some (pre, ord) := by
  have hmem : '#' ∈ pre ++ '#' :: ord :=
    List.mem_append_right pre (List.mem_cons_self '#' ord)
  rw [lastHashSplit, if_pos hmem]
  have hrev : (pre ++ '#' :: ord).reverse = ord.reverse ++ '#' :: pre.reverse := by
    rw [List.reverse_append, List.reverse_cons, List.append_assoc, List.singleton_append]
  have hall : ∀ x ∈ ord.reverse, (x != '#') = true := by
    intro x hx
    rw [List.mem_reverse] at hx
    have hne : x ≠ '#' := fun hh => h (hh ▸ hx)
    simpa using hne
  have hhash : (('#' : Char) != '#') = false := by decide
  rw [hrev, takeWhile_append_of_all ord.reverse ('#' :: pre.reverse) hall,
    dropWhile_append_of_all ord.reverse ('#' :: pre.reverse) hall]
  rw [List.takeWhile_cons, if_neg (by simp [hhash]), List.dropWhile_cons,
    if_neg (by simp [hhash])]
  simp

/-- Conversely, a successful last-`#` split is a decomposition whose
tail is `#`-free. -/
theorem lastHashSplit_eq_some {l before after : List Char}
    (h : lastHashSplit l = some (before, after)) :
    l = before ++ '#' :: after ∧ '#' ∉ after := by
  rw [lastHashSplit] at h
  by_cases hm : '#' ∈ l
  · rw [if_pos hm] at h
    simp only [Option.some.injEq, Prod.mk.injEq] at h
    obtain ⟨hb, ha⟩ := h
    subst hb
    subst ha
    constructor
    · cases hdw : l.reverse.dropWhile (fun c => c != '#') with
      | nil =>
        exfalso
        have hall := dropWhile_eq_nil_all hdw '#' (List.mem_reverse.mpr hm)
        simp at hall
      | cons c t =>
        have hc2 : c = '#' := by
          have hc := dropWhile_head_false hdw
          simpa using hc
        subst hc2
        have hsplit : l.reverse = l.reverse.takeWhile (fun c => c != '#') ++ '#' :: t := by
          conv_lhs => rw [← List.takeWhile_append_dropWhile (fun c => c != '#') l.reverse]
          rw [hdw]
        calc l = l.reverse.reverse := (List.reverse_reverse l).symm
          _ = (l.reverse.takeWhile (fun c => c != '#') ++ '#' :: t).reverse := by
                rw [← hsplit]
          _ = t.reverse ++ '#' :: (l.reverse.takeWhile (fun c => c != '#')).reverse := by
                rw [List.reverse_append, List.reverse_cons, List.append_assoc,
                  List.singleton_append]
          _ = (('#' :: t).drop 1).reverse ++ '#' ::
                (l.reverse.takeWhile (fun c => c != '#')).reverse := rfl
    · intro hx
      rw [List.mem_reverse] at hx
      have hpred := mem_takeWhile_pred hx
      simp at hpred
  · rw [if_neg hm] at h
    exact Option.noConfusion h

theorem splitChar_ne_nil (sep : Char) : ∀ l : List Char, splitChar sep l ≠ [] := by
  intro l
  cases l with
  | nil => simp [splitChar]
  | cons c rest =>
    rw [splitChar]
    cases h : splitChar sep rest with
    | nil => split <;> split <;> simp
    | cons hh tt => split <;> split <;> simp

theorem splitChar_not_mem (sep : Char) :
    ∀ l : List Char, sep ∉ l → splitChar sep l = [l] := by
  intro l
  induction l with
  | nil => intro _; rfl
  | cons c rest ih =>
    intro h
    have hc : ¬ (c == sep) = true := by
      simp only [beq_iff_eq]
      exact fun hh => h (hh ▸ List.mem_cons_self c rest)
    rw [splitChar, ih (fun hh => h (List.mem_cons_of_mem c hh))]
    simp [hc]

theorem splitChar_append_sep (sep : Char) :
    ∀ (a b : List Char), sep ∉ a →
      splitChar sep (a ++ sep :: b) = a :: splitChar sep b := by
  intro a
  induction a with
  | nil =>
    intro b _
    rw [List.nil_append, splitChar]
    cases h : splitChar sep b with
    | nil => exact absurd h (splitChar_ne_nil sep b)
    | cons hh tt => simp
  | cons c rest ih =>
    intro b h
    have hc : ¬ (c == sep) = true := by
      simp only [beq_iff_eq]
      exact fun hh => h (hh ▸ List.mem_cons_self c rest)
    rw [List.cons_append, splitChar, ih b (fun hh => h (List.mem_cons_of_mem c hh))]
    simp [hc]

/-- The order value of a matched range `a-b` is the larger endpoint. -/
theorem orderVal_range (a b : List Char) (ha : '-' ∉ a) (hb : '-' ∉ b) :
    orderVal (a ++ '-' :: b) = max (valDec a) (valDec b) := by
  have h1 : splitChar '-' (a ++ '-' :: b) = [a, b] := by
    rw [splitChar_append_sep '-' a b ha, splitChar_not_mem '-' b hb]
  rw [orderVal.eq_def, h1]

/-- The order value of a matched plain decimal is its decimal value. -/
theorem orderVal_single (a : List Char) (ha : '-' ∉ a) :
    orderVal a = valDec a := by
  rw [orderVal.eq_def, splitChar_not_mem '-' a ha]

/-- C4: the series-label parser is a total function.  The five
canonical inputs evaluate as the spec states; universally, every input
whose stripped form decomposes at its final `#` into a name part
(nonempty after trimming, newline-free) and an order group matching the
number pattern parses to (trimmed name, order value); the order value
of a range is the maximum of its endpoints and of a plain decimal its
value; and every input admitting no such decomposition — with or
without a `#` — degrades to (trimmed input, 0). -/
theorem parse_series_info_spec :
    (parse_series_info "Foo #3" = ("Foo", 3) ∧
     parse_series_info "Foo #1-3" = ("Foo", 3) ∧
     parse_series_info "Foo #1.5" = ("Foo", 3/2) ∧
     parse_series_info "" = ("", 0) ∧
     parse_series_info "Foo" = ("Foo", 0)) ∧
    (∀ (s : String) (pre ord : List Char),
      pyStripList s.toList = pre ++ '#' :: ord →
      '#' ∉ ord →
      matchNumPat ord = true →
      stripTrailing pre ≠ [] →
      '\n' ∉ stripTrailing pre →
      parse_series_info s = (String.mk (stripTrailing pre), orderVal ord)) ∧
    (∀ a b : List Char, '-' ∉ a → '-' ∉ b →
      orderVal (a ++ '-' :: b) = max (valDec a) (valDec b)) ∧
    (∀ a : List Char, '-' ∉ a → orderVal a = valDec a) ∧
    (∀ s : String,
      (¬ ∃ pre ord, pyStripList s.toList = pre ++ '#' :: ord ∧ '#' ∉ ord ∧
          matchNumPat ord = true ∧ stripTrailing pre ≠ [] ∧
          '\n' ∉ stripTrailing pre) →
      parse_series_info s = (String.mk (pyStripList s.toList), 0)) := by
  refine ⟨⟨by decide, by decide, ?_, by decide, by decide⟩, ?_, orderVal_range, orderVal_single, ?_⟩
  · have h32 : (mkRat 3 2 : ℚ) = 3 / 2 := by
      rw [Rat.mkRat_eq_div]; norm_num
    rw [← h32]; decide
  · intro s pre ord heq hnin hnum hcore hnl
    have h0 : s ≠ "" := by
      intro hh
      subst hh
      rw [show pyStripList ("" : String).toList = [] from rfl] at heq
      exact (List.cons_ne_nil '#' ord) (List.append_eq_nil.mp heq.symm).2
    have hsplit2 : lastHashSplit (pyStripList s.data) = some (pre, ord) := by
      have heq2 : pyStripList s.data = pre ++ '#' :: ord := heq
      rw [heq2]
      exact lastHashSplit_append pre ord hnin
    simp [parse_series_info, h0, hsplit2, hcore, hnl, hnum]
  · intro s hnot
    by_cases h0 : s = ""
    · subst h0; decide
    · cases hsplit : lastHashSplit (pyStripList s.toList) with
      | none =>
        have hsplit2 : lastHashSplit (pyStripList s.data) = none := hsplit
        simp [parse_series_info, h0, hsplit2]
      | some ba =>
        obtain ⟨before, after⟩ := ba
        obtain ⟨heq, hnin⟩ := lastHashSplit_eq_some hsplit
        have hsplit2 : lastHashSplit (pyStripList s.data) = some (before, after) := hsplit
        by_cases hc1 : stripTrailing before = []
        · simp [parse_series_info, h0, hsplit2, hc1]
        · by_cases hc2 : '\n' ∈ stripTrailing before
          · simp [parse_series_info, h0, hsplit2, hc1, hc2]
          · by_cases hc3 : matchNumPat after = true
            · exact absurd ⟨before, after, heq, hnin, hc3, hc1, hc2⟩ hnot
            · simp [parse_series_info, h0, hsplit2, hc1, hc2, hc3]

theorem parse_series_info_spec_witness :
    (pyStripList ("Foo #7".toList) = "Foo ".toList ++ '#' :: ['7'] ∧
     '#' ∉ (['7'] : List Char) ∧ matchNumPat ['7'] = true ∧
     stripTrailing ("Foo ".toList) ≠ [] ∧
     '\n' ∉ stripTrailing ("Foo ".toList)) ∧
    parse_series_info "Foo #7" = (String.mk (stripTrailing ("Foo ".toList)), orderVal ['7']) ∧
    ('-' ∉ (['1'] : List Char) ∧ '-' ∉ (['3'] : List Char)) ∧
    orderVal (['1'] ++ '-' :: ['3']) = max (valDec ['1']) (valDec ['3']) :=
  ⟨⟨by decide, by decide, by decide, by decide, by decide⟩,
   parse_series_info_spec.2.1 "Foo #7" ("Foo ".toList) ['7']
     (by decide) (by decide) (by decide) (by decide) (by decide),
   ⟨by decide, by decide⟩,
   parse_series_info_spec.2.2.1 ['1'] ['3'] (by decide) (by decide)⟩

/-! ## Catalog candidate extraction lemmas -/

/-- C10: an affiliation with an empty (or missing) sequence field is
kept as a candidate with numeric sequence 0, while a non-empty sequence
that Python `float` rejects discards the candidate entirely; the same
policy applies in the relationship fallback once its type and
merchant filters pass. -/
theorem sequence_candidate_policy (a : SeriesAffil) (r : ProductRel) :
    (a.sequence = "" → seriesFieldStep a = some ⟨a.asin, a.title, 0⟩) ∧
    (a.sequence ≠ "" → pyFloat? a.sequence = none → seriesFieldStep a = none) ∧
    (r.relationship_type = "series" →
      r.relationship_to_product ≠ "merchant_title_authority" →
      r.sequence = "" → relStep r = some ⟨r.asin, r.title, 0⟩) ∧
    (r.relationship_type = "series" →
      r.relationship_to_product ≠ "merchant_title_authority" →
      r.sequence ≠ "" → pyFloat? r.sequence = none → relStep r = none) := by
  refine ⟨?_, ?_, ?_, ?_⟩
  · intro h
    simp [seriesFieldStep, h, show hasDramatized "" = false from by decide]
  · intro h hf
    by_cases hd : hasDramatized a.sequence <;> simp [seriesFieldStep, hd, h, hf]
  · intro ht hm h
    simp [relStep, ht, hm, h, show hasDramatized "" = false from by decide]
  · intro ht hm h hf
    by_cases hd : hasDramatized r.sequence <;> simp [relStep, ht, hm, hd, h, hf]

theorem sequence_candidate_policy_witness :
    (("" : String) = "") ∧
    seriesFieldStep ⟨"A1", "T1", ""⟩ = some ⟨"A1", "T1", 0⟩ ∧
    pyFloat? "abc" = none ∧
    relStep ⟨"R1", "T2", "abc", "series", "other"⟩ = none :=
  ⟨rfl,
   (sequence_candidate_policy ⟨"A1", "T1", ""⟩ ⟨"R1", "T2", "abc", "series", "other"⟩).1 rfl,
   by decide,
   (sequence_candidate_policy ⟨"A1", "T1", ""⟩ ⟨"R1", "T2", "abc", "series", "other"⟩).2.2.2
     rfl (by decide) (by decide) (by decide)⟩

theorem seriesFieldStep_some_no_dramatized (a : SeriesAffil) (c : CandSeries)
    (h : seriesFieldStep a = some c) : hasDramatized a.sequence = false := by
  by_cases hd : hasDramatized a.sequence = true
  · rw [seriesFieldStep, if_pos hd] at h
    exact Option.noConfusion h
  · simpa using hd

theorem relStep_some_filters (r : ProductRel) (c : CandSeries)
    (h : relStep r = some c) :
    r.relationship_type = "series" ∧
    r.relationship_to_product ≠ "merchant_title_authority" ∧
    hasDramatized r.sequence = false := by
  by_cases h1 : r.relationship_type ≠ "series"
  · rw [relStep, if_pos h1] at h
    exact Option.noConfusion h
  · by_cases h2 : r.relationship_to_product = "merchant_title_authority"
    · rw [relStep, if_neg h1, if_pos h2] at h
      exact Option.noConfusion h
    · by_cases h3 : hasDramatized r.sequence = true
      · rw [relStep, if_neg h1, if_neg h2, if_pos h3] at h
        exact Option.noConfusion h
      · exact ⟨not_not.mp h1, h2, by simpa using h3⟩

/-- C8: every candidate that the extraction returns originates either
from the product's series field, with a sequence free of "dramatized",
or — only when the series field yielded no surviving candidate — from a
`"series"`-typed relationship that is not the merchant back-reference
and is likewise free of "dramatized". -/
theorem get_series_from_product_filters (p : AudProduct) (c : CandSeries)
    (hc : c ∈ get_series_from_product p) :
    (p.series.filterMap seriesFieldStep ≠ [] ∧
      ∃ a ∈ p.series, hasDramatized a.sequence = false ∧ seriesFieldStep a = some c) ∨
    (p.series.filterMap seriesFieldStep = [] ∧
      ∃ r ∈ p.relationships, r.relationship_type = "series" ∧
        r.relationship_to_product ≠ "merchant_title_authority" ∧
        hasDramatized r.sequence = false ∧ relStep r = some c) := by
  by_cases he : p.series.filterMap seriesFieldStep = []
  · right
    refine ⟨he, ?_⟩
    rw [get_series_from_product, he] at hc
    simp only [List.isEmpty_nil, if_true] at hc
    obtain ⟨r, hr, hstep⟩ := List.mem_filterMap.mp hc
    obtain ⟨h1, h2, h3⟩ := relStep_some_filters r c hstep
    exact ⟨r, hr, h1, h2, h3, hstep⟩
  · left
    refine ⟨he, ?_⟩
    rw [get_series_from_product] at hc
    have hne : (p.series.filterMap seriesFieldStep).isEmpty = false := by
      cases hh : p.series.filterMap seriesFieldStep with
      | nil => exact absurd hh he
      | cons x xs => rfl
    rw [hne] at hc
    simp only [Bool.false_eq_true, if_false] at hc
    obtain ⟨a, ha, hstep⟩ := List.mem_filterMap.mp hc
    exact ⟨a, ha, seriesFieldStep_some_no_dramatized a c hstep, hstep⟩

theorem get_series_from_product_filters_witness :
    wCand ∈ get_series_from_product wProduct ∧
    ((wProduct.series.filterMap seriesFieldStep ≠ [] ∧
      ∃ a ∈ wProduct.series, hasDramatized a.sequence = false ∧
        seriesFieldStep a = some wCand) ∨
     (wProduct.series.filterMap seriesFieldStep = [] ∧
      ∃ r ∈ wProduct.relationships, r.relationship_type = "series" ∧
        r.relationship_to_product ≠ "merchant_title_authority" ∧
        hasDramatized r.sequence = false ∧ relStep r = some wCand)) :=
  ⟨by decide, get_series_from_product_filters wProduct wCand (by decide)⟩

/-! ## Next-book selector lemmas -/

theorem combineNext_none_left (x : Option CatalogBook) : combineNext none x = x :=
  rfl

theorem combineNext_none_right (x : Option CatalogBook) : combineNext x none = x := by
  cases x <;> rfl

theorem combineNext_assoc (x : Option CatalogBook) (b : CatalogBook)
    (y : Option CatalogBook) :
    combineNext (combineNext x (some b)) y = combineNext x (combineNext (some b) y) := by
  cases x with
  | none => rfl
  | some cx =>
    cases y with
    | none => rw [combineNext_none_right, combineNext_none_right]
    | some m =>
      by_cases hbc : b.sequence < cx.sequence <;>
        by_cases hmb : m.sequence < b.sequence <;>
          by_cases hmc : m.sequence < cx.sequence <;>
            simp only [combineNext, if_pos, if_neg, hbc, hmb, hmc, ite_true, ite_false] <;>
              first
                | rfl
                | (exfalso; linarith)

theorem minBySeqFirst_cons (b : CatalogBook) (l : List CatalogBook) :
    minBySeqFirst (b :: l) = combineNext (some b) (minBySeqFirst l) := by
  cases h : minBySeqFirst l <;> simp [minBySeqFirst, h, combineNext]

theorem nextStep_of_qual (om : ℚ) (nb : Option CatalogBook) (b : CatalogBook)
    (hq : nextQualifies om b = true) : nextStep om nb b = combineNext nb (some b) := by
  rw [nextQualifies, Bool.and_eq_true, decide_eq_true_eq, decide_eq_true_eq] at hq
  obtain ⟨hint, hgt⟩ := hq
  cases nb with
  | none =>
    rw [nextStep.eq_def, if_neg (not_not_intro hint), if_pos hgt]
    rfl
  | some cur =>
    rw [nextStep.eq_def, if_neg (not_not_intro hint), if_pos hgt]
    rfl

theorem nextStep_of_not_qual (om : ℚ) (nb : Option CatalogBook) (b : CatalogBook)
    (hq : nextQualifies om b = false) : nextStep om nb b = nb := by
  rw [nextQualifies, Bool.and_eq_false_iff] at hq
  cases hq with
  | inl h =>
    have h2 : b.sequence ≠ ((pyInt b.sequence : ℤ) : ℚ) :=
      of_decide_eq_false h
    rw [nextStep.eq_def, if_pos h2]
  | inr h =>
    have h2 : ¬ om < b.sequence := of_decide_eq_false h
    by_cases hint : b.sequence = ((pyInt b.sequence : ℤ) : ℚ)
    · rw [nextStep.eq_def, if_neg (not_not_intro hint), if_neg h2]
    · rw [nextStep.eq_def, if_pos hint]

theorem foldl_nextStep (om : ℚ) :
    ∀ (l : List CatalogBook) (nb : Option CatalogBook),
      l.foldl (nextStep om) nb =
        combineNext nb (minBySeqFirst (l.filter (nextQualifies om))) := by
  intro l
  induction l with
  | nil => intro nb; cases nb <;> rfl
  | cons b rest ih =>
    intro nb
    by_cases hq : nextQualifies om b = true
    · rw [List.foldl_cons, nextStep_of_qual om nb b hq, ih,
        List.filter_cons_of_pos hq, minBySeqFirst_cons]
      exact combineNext_assoc nb b (minBySeqFirst (rest.filter (nextQualifies om)))
    · rw [List.foldl_cons, nextStep_of_not_qual om nb b (by simpa using hq), ih,
        List.filter_cons_of_neg (by simpa using hq)]

theorem minBySeqFirst_eq_none_iff (l : List CatalogBook) :
    minBySeqFirst l = none ↔ l = [] := by
  cases l with
  | nil => simp [minBySeqFirst]
  | cons b rest =>
    rw [minBySeqFirst_cons]
    cases h : minBySeqFirst rest with
    | none => simp [combineNext]
    | some m2 =>
      simp only [combineNext]
      constructor
      · intro hh
        split at hh <;> exact Option.noConfusion hh
      · intro hh
        exact List.noConfusion hh

theorem minBySeqFirst_mem :
    ∀ (l : List CatalogBook) (m : CatalogBook), minBySeqFirst l = some m → m ∈ l := by
  intro l
  induction l with
  | nil => intro m h; exact absurd h (by simp [minBySeqFirst])
  | cons b rest ih =>
    intro m h
    rw [minBySeqFirst_cons] at h
    cases hr : minBySeqFirst rest with
    | none =>
      rw [hr] at h
      simp only [combineNext, Option.some.injEq] at h
      exact h ▸ List.mem_cons_self b rest
    | some m2 =>
      rw [hr] at h
      simp only [combineNext] at h
      by_cases hlt : m2.sequence < b.sequence
      · rw [if_pos hlt] at h
        simp only [Option.some.injEq] at h
        exact List.mem_cons_of_mem b (ih m (h ▸ hr))
      · rw [if_neg hlt] at h
        simp only [Option.some.injEq] at h
        exact h ▸ List.mem_cons_self b rest

theorem minBySeqFirst_le :
    ∀ (l : List CatalogBook) (m : CatalogBook), minBySeqFirst l = some m →
      ∀ b ∈ l, m.sequence ≤ b.sequence := by
  intro l
  induction l with
  | nil => intro m h; exact absurd h (by simp [minBySeqFirst])
  | cons b rest ih =>
    intro m h x hx
    rw [minBySeqFirst_cons] at h
    rcases List.mem_cons.mp hx with hxb | hxr
    · subst hxb
      cases hr : minBySeqFirst rest with
      | none =>
        rw [hr] at h
        simp only [combineNext, Option.some.injEq] at h
        exact h ▸ le_refl _
      | some m2 =>
        rw [hr] at h
        simp only [combineNext] at h
        by_cases hlt : m2.sequence < x.sequence
        · rw [if_pos hlt] at h
          simp only [Option.some.injEq] at h
          exact h ▸ le_of_lt hlt
        · rw [if_neg hlt] at h
          simp only [Option.some.injEq] at h
          exact h ▸ le_refl _
    · cases hr : minBySeqFirst rest with
      | none =>
        rw [minBySeqFirst_eq_none_iff] at hr
        subst hr
        exact absurd hxr (List.not_mem_nil x)
      | some m2 =>
        rw [hr] at h
        simp only [combineNext] at h
        have hle := ih m2 hr x hxr
        by_cases hlt : m2.sequence < b.sequence
        · rw [if_pos hlt] at h
          simp only [Option.some.injEq] at h
          exact h ▸ hle
        · rw [if_neg hlt] at h
          simp only [Option.some.injEq] at h
          subst h
          exact le_trans (not_lt.mp hlt) hle

/-- C1: the selector agrees with the specification selector (smallest
integer sequence strictly above `owned_max`, first encountered winning
ties); it returns `none` exactly when no member qualifies, and any
returned member is a qualifying member of the list with a minimal
sequence among qualifiers. -/
theorem find_next_book_correct (owned_max : ℚ) (l : List CatalogBook) :
    find_next_book owned_max l = selectNextSpec owned_max l ∧
    (find_next_book owned_max l = none ↔
      ∀ b ∈ l, nextQualifies owned_max b = false) ∧
    (∀ nb, find_next_book owned_max l = some nb →
      nb ∈ l ∧ nextQualifies owned_max nb = true ∧
      ∀ b ∈ l, nextQualifies owned_max b = true → nb.sequence ≤ b.sequence) := by
  have hmain : find_next_book owned_max l = selectNextSpec owned_max l := by
    rw [find_next_book, selectNextSpec]
    by_cases h0 : l = []
    · subst h0; simp [minBySeqFirst]
    · rw [if_neg h0, foldl_nextStep, combineNext_none_left]
  refine ⟨hmain, ?_, ?_⟩
  · rw [hmain, selectNextSpec, minBySeqFirst_eq_none_iff, List.filter_eq_nil_iff]
    constructor
    · intro h b hb
      by_contra hq
      exact (h b hb) (by simpa using hq)
    · intro h b hb hq
      rw [h b hb] at hq
      exact Bool.noConfusion hq
  · intro nb hnb
    rw [hmain, selectNextSpec] at hnb
    have hmem := minBySeqFirst_mem _ nb hnb
    rw [List.mem_filter] at hmem
    refine ⟨hmem.1, hmem.2, ?_⟩
    intro b hb hq
    exact minBySeqFirst_le _ nb hnb b (List.mem_filter.mpr ⟨hb, hq⟩)

theorem find_next_book_correct_witness :
    find_next_book 3 wBooks = some ⟨"a4", "Book 4", 4, "", ""⟩ ∧
    ((⟨"a4", "Book 4", 4, "", ""⟩ : CatalogBook) ∈ wBooks ∧
      nextQualifies 3 ⟨"a4", "Book 4", 4, "", ""⟩ = true ∧
      ∀ b ∈ wBooks, nextQualifies 3 b = true →
        (⟨"a4", "Book 4", 4, "", ""⟩ : CatalogBook).sequence ≤ b.sequence) :=
  ⟨by decide, (find_next_book_correct 3 wBooks).2.2 ⟨"a4", "Book 4", 4, "", ""⟩ (by decide)⟩

/-! ## Reconciler lemmas -/

theorem maxOrderFrom_cons (x : ℚ) (b : OwnedBook) (l : List OwnedBook) :
    maxOrderFrom x (b :: l) = maxOrderFrom (max x b.order) l :=
  rfl

theorem le_maxOrderFrom : ∀ (l : List OwnedBook) (x : ℚ), x ≤ maxOrderFrom x l := by
  intro l
  induction l with
  | nil => intro x; exact le_refl x
  | cons b rest ih =>
    intro x
    rw [maxOrderFrom_cons]
    exact le_trans (le_max_left x b.order) (ih (max x b.order))

theorem mem_le_maxOrderFrom :
    ∀ (l : List OwnedBook) (x : ℚ) (b : OwnedBook), b ∈ l → b.order ≤ maxOrderFrom x l := by
  intro l
  induction l with
  | nil => intro x b hb; exact absurd hb (List.not_mem_nil b)
  | cons c rest ih =>
    intro x b hb
    rw [maxOrderFrom_cons]
    rcases List.mem_cons.mp hb with rfl | hbr
    · exact le_trans (le_max_right x b.order) (le_maxOrderFrom rest (max x b.order))
    · exact ih (max x c.order) b hbr

theorem maxOrderFrom_of_all_le :
    ∀ (l : List OwnedBook) (x : ℚ), (∀ b ∈ l, b.order ≤ x) → maxOrderFrom x l = x := by
  intro l
  induction l with
  | nil => intro x _; rfl
  | cons c rest ih =>
    intro x h
    rw [maxOrderFrom_cons, max_eq_left (h c (List.mem_cons_self c rest))]
    exact ih x (fun b hb => h b (List.mem_cons_of_mem c hb))

theorem exists_achiever :
    ∀ (l : List OwnedBook) (x : ℚ), (∃ b ∈ l, x < b.order) →
      ∃ b ∈ l, b.order = maxOrderFrom x l := by
  intro l
  induction l with
  | nil =>
    intro x h
    obtain ⟨b, hb, _⟩ := h
    exact absurd hb (List.not_mem_nil b)
  | cons c rest ih =>
    intro x h
    by_cases hex : ∃ b ∈ rest, (max x c.order) < b.order
    · obtain ⟨b, hb, heq⟩ := ih (max x c.order) hex
      exact ⟨b, List.mem_cons_of_mem c hb, by rw [maxOrderFrom_cons]; exact heq⟩
    · have hall : ∀ b ∈ rest, b.order ≤ max x c.order := by
        intro b hb
        by_contra hlt
        exact hex ⟨b, hb, not_le.mp hlt⟩
      have hM : maxOrderFrom x (c :: rest) = max x c.order := by
        rw [maxOrderFrom_cons]
        exact maxOrderFrom_of_all_le rest (max x c.order) hall
      obtain ⟨b, hb, hxb⟩ := h
      rcases List.mem_cons.mp hb with rfl | hbr
      · exact ⟨b, List.mem_cons_self b rest,
          by rw [hM, max_eq_right (le_of_lt hxb)]⟩
      · rcases max_choice x c.order with hmx | hmc
        · exfalso
          have hle := hall b hbr
          rw [hmx] at hle
          linarith
        · exact ⟨c, List.mem_cons_self c rest, by rw [hM, hmc]⟩

theorem maxOrderFrom_zero_pos_iff (l : List OwnedBook) :
    0 < maxOrderFrom 0 l ↔ ∃ b ∈ l, 0 < b.order := by
  constructor
  · intro h
    by_contra hex
    have hall : ∀ b ∈ l, b.order ≤ 0 := by
      intro b hb
      by_contra hlt
      exact hex ⟨b, hb, not_le.mp hlt⟩
    rw [maxOrderFrom_of_all_le l 0 hall] at h
    exact lt_irrefl 0 h
  · intro h
    obtain ⟨b, hb, hpos⟩ := h
    exact lt_of_lt_of_le hpos (mem_le_maxOrderFrom l 0 b hb)

/-- Characterization of the inner book loop from an arbitrary loop
state: the collected books are appended in order, the maximum is the
running maximum seeded with the incoming one, and the sample is the
first book strictly raising the incoming maximum to the final one —
else the incoming sample, else the first resolved book. -/
theorem processBooks_spec (snl : List Char) :
    ∀ (bs : List LibBook) (acc : BuildAcc),
      processBooks snl bs acc =
        { books := acc.books ++ resolvedFrom snl bs,
          max_order := maxOrderFrom acc.max_order (resolvedFrom snl bs),
          sample :=
            if ∃ b ∈ resolvedFrom snl bs, acc.max_order < b.order then
              (List.find?
                  (fun b => decide (b.order = maxOrderFrom acc.max_order (resolvedFrom snl bs)))
                  (resolvedFrom snl bs)).map (fun b => b.asin)
            else
              match acc.sample with
              | none => (resolvedFrom snl bs).head?.map (fun b => b.asin)
              | some a => some a } := by
  intro bs
  induction bs with
  | nil =>
    intro acc
    obtain ⟨bk, mx, sp⟩ := acc
    cases sp <;> simp [processBooks, resolvedFrom, maxOrderFrom]
  | cons b rest ih =>
    intro acc
    cases hres : resolveAsin b with
    | none =>
      simp only [processBooks, hres, resolvedFrom]
      exact ih acc
    | some asin =>
      simp only [processBooks, hres, resolvedFrom]
      by_cases hlt : acc.max_order < bookOrder snl b
      · rw [if_pos hlt]
        dsimp only
        rw [if_neg (show ¬ (some asin = (none : Option String)) from
          fun hh => Option.noConfusion hh)]
        dsimp only
        rw [ih]
        dsimp only
        simp only [BuildAcc.mk.injEq]
        refine ⟨by simp, ?_, ?_⟩
        · rw [maxOrderFrom_cons]
          dsimp only
          rw [max_eq_right (le_of_lt hlt)]
        · rw [maxOrderFrom_cons]
          dsimp only
          rw [max_eq_right (le_of_lt hlt)]
          by_cases hex : ∃ x ∈ resolvedFrom snl rest, bookOrder snl b < x.order
          · rw [if_pos hex]
            have hexc : ∃ x ∈ (⟨asin, bookOrder snl b, b.meta.title⟩ : OwnedBook) ::
                resolvedFrom snl rest, acc.max_order < x.order := by
              obtain ⟨x, hx, hxo⟩ := hex
              exact ⟨x, List.mem_cons_of_mem _ hx, lt_trans hlt hxo⟩
            rw [if_pos hexc]
            have hMgt : bookOrder snl b <
                maxOrderFrom (bookOrder snl b) (resolvedFrom snl rest) := by
              obtain ⟨x, hx, hxo⟩ := hex
              exact lt_of_lt_of_le hxo (mem_le_maxOrderFrom _ _ x hx)
            rw [List.find?_cons_of_neg]
            dsimp only
            exact fun hh => absurd (of_decide_eq_true hh) (ne_of_lt hMgt)
          · rw [if_neg hex]
            have hall : ∀ x ∈ resolvedFrom snl rest, x.order ≤ bookOrder snl b := by
              intro x hx
              by_contra hxlt
              exact hex ⟨x, hx, not_le.mp hxlt⟩
            have hM : maxOrderFrom (bookOrder snl b) (resolvedFrom snl rest) =
                bookOrder snl b :=
              maxOrderFrom_of_all_le _ _ hall
            have hexc : ∃ x ∈ (⟨asin, bookOrder snl b, b.meta.title⟩ : OwnedBook) ::
                resolvedFrom snl rest, acc.max_order < x.order :=
              ⟨⟨asin, bookOrder snl b, b.meta.title⟩, List.mem_cons_self _ _, hlt⟩
            rw [if_pos hexc, hM, List.find?_cons_of_pos]
            · rfl
            · dsimp only
              exact decide_eq_true rfl
      · rw [if_neg hlt]
        have hmax : max acc.max_order (bookOrder snl b) = acc.max_order :=
          max_eq_left (not_lt.mp hlt)
        have hcond : (∃ x ∈ (⟨asin, bookOrder snl b, b.meta.title⟩ : OwnedBook) ::
            resolvedFrom snl rest, acc.max_order < x.order) ↔
            (∃ x ∈ resolvedFrom snl rest, acc.max_order < x.order) := by
          constructor
          · intro hh
            obtain ⟨x, hx, hxo⟩ := hh
            rcases List.mem_cons.mp hx with rfl | hxr
            · exact absurd hxo hlt
            · exact ⟨x, hxr, hxo⟩
          · intro hh
            obtain ⟨x, hx, hxo⟩ := hh
            exact ⟨x, List.mem_cons_of_mem _ hx, hxo⟩
        have hMgt : ∀ (hex : ∃ x ∈ resolvedFrom snl rest, acc.max_order < x.order),
            acc.max_order < maxOrderFrom acc.max_order (resolvedFrom snl rest) := by
          intro hex
          obtain ⟨x, hx, hxo⟩ := hex
          exact lt_of_lt_of_le hxo (mem_le_maxOrderFrom _ _ x hx)
        by_cases hsp : acc.sample = none
        · rw [if_pos hsp]
          dsimp only
          rw [ih]
          dsimp only
          simp only [BuildAcc.mk.injEq]
          refine ⟨by simp, ?_, ?_⟩
          · rw [maxOrderFrom_cons]
            dsimp only
            rw [hmax]
          · rw [maxOrderFrom_cons]
            dsimp only
            rw [hmax]
            by_cases hex : ∃ x ∈ resolvedFrom snl rest, acc.max_order < x.order
            · rw [if_pos hex, if_pos (hcond.mpr hex)]
              rw [List.find?_cons_of_neg]
              dsimp only
              exact fun hh => absurd (of_decide_eq_true hh)
                (ne_of_lt (lt_of_le_of_lt (not_lt.mp hlt) (hMgt hex)))
            · rw [if_neg hex, if_neg (fun hh => hex (hcond.mp hh)), hsp]
              rfl
        · rw [if_neg hsp]
          rw [ih]
          dsimp only
          simp only [BuildAcc.mk.injEq]
          refine ⟨by simp, ?_, ?_⟩
          · rw [maxOrderFrom_cons]
            dsimp only
            rw [hmax]
          · rw [maxOrderFrom_cons]
            dsimp only
            rw [hmax]
            by_cases hex : ∃ x ∈ resolvedFrom snl rest, acc.max_order < x.order
            · rw [if_pos hex, if_pos (hcond.mpr hex)]
              rw [List.find?_cons_of_neg]
              dsimp only
              exact fun hh => absurd (of_decide_eq_true hh)
                (ne_of_lt (lt_of_le_of_lt (not_lt.mp hlt) (hMgt hex)))
            · rw [if_neg hex, if_neg (fun hh => hex (hcond.mp hh))]
              obtain ⟨a, ha⟩ := Option.ne_none_iff_exists'.mp hsp
              rw [ha]

/-- C7 (amended): for a series record with a nonempty name, a snapshot
is emitted exactly when some contained book resolves an identifier; the
snapshot lists the resolved books in order, its maximum is the running
maximum of their orders, and its representative identifier is the first
book achieving a positive maximum, else the first resolved book. -/
theorem build_series_reconciler (s : LibSeries) (hn : s.name ≠ "") :
    ((buildOne s).isSome ↔ resolvedBooks s ≠ []) ∧
    ∀ snap, buildOne s = some snap →
      snap.books = resolvedBooks s ∧
      snap.max_order = maxOrderFrom 0 (resolvedBooks s) ∧
      some snap.sample_asin = repSpec (resolvedBooks s) := by
  have hacc := processBooks_spec (lowerList s.name.toList) s.books ⟨[], 0, none⟩
  have hone : buildOne s =
      match (if ∃ b ∈ resolvedFrom (lowerList s.name.toList) s.books, (0 : ℚ) < b.order then
          (List.find? (fun b => decide (b.order =
              maxOrderFrom 0 (resolvedFrom (lowerList s.name.toList) s.books)))
            (resolvedFrom (lowerList s.name.toList) s.books)).map (fun b => b.asin)
        else
          (resolvedFrom (lowerList s.name.toList) s.books).head?.map (fun b => b.asin)) with
      | some a =>
        some ⟨maxOrderFrom 0 (resolvedFrom (lowerList s.name.toList) s.books), a,
          resolvedFrom (lowerList s.name.toList) s.books⟩
      | none => none := by
    simp only [buildOne]
    rw [if_neg hn, hacc]
    dsimp only
    rfl
  unfold resolvedBooks
  cases hrb : resolvedFrom (lowerList s.name.toList) s.books with
  | nil =>
    rw [hone, hrb]
    rw [if_neg (show ¬ ∃ b ∈ ([] : List OwnedBook), (0 : ℚ) < b.order from by simp)]
    constructor
    · simp
    · intro snap hsnap
      simp at hsnap
  | cons b0 rtl =>
    rw [hone, hrb]
    by_cases hex : ∃ x ∈ b0 :: rtl, (0 : ℚ) < x.order
    · rw [if_pos hex]
      obtain ⟨m, hm, hmeq⟩ := exists_achiever (b0 :: rtl) 0 hex
      cases hf : List.find? (fun b => decide (b.order = maxOrderFrom 0 (b0 :: rtl)))
          (b0 :: rtl) with
      | none =>
        exfalso
        rw [List.find?_eq_none] at hf
        exact (hf m hm) (decide_eq_true hmeq)
      | some m2 =>
        constructor
        · simp
        · intro snap hsnap
          simp at hsnap
          subst hsnap
          refine ⟨rfl, rfl, ?_⟩
          simp only [repSpec]
          rw [if_pos ((maxOrderFrom_zero_pos_iff (b0 :: rtl)).mpr hex), hf]
          rfl
    · rw [if_neg hex]
      constructor
      · simp
      · intro snap hsnap
        simp at hsnap
        subst hsnap
        refine ⟨rfl, rfl, ?_⟩
        simp only [repSpec]
        rw [if_neg (fun hpos => hex ((maxOrderFrom_zero_pos_iff (b0 :: rtl)).mp hpos))]

theorem build_series_reconciler_witness :
    (wSeries.name ≠ "") ∧
    ((buildOne wSeries).isSome ↔ resolvedBooks wSeries ≠ []) :=
  ⟨by decide, (build_series_reconciler wSeries (by decide)).1⟩

/-- C7 counterexample: a series record whose name is empty but which
contains a book with a resolvable identifier is dropped by the
reconciler, so a snapshot is not emitted for it even though a contained
book resolves. -/
theorem build_series_empty_name_cex :
    build_series_dict_from_series
        [⟨"", [⟨⟨"B000000001", "", "T"⟩, ""⟩]⟩] = [] ∧
    resolveAsin ⟨⟨"B000000001", "", "T"⟩, ""⟩ = some "B000000001" :=
  ⟨by decide, by decide⟩
